import Mathlib

/-!
Model of the wave2data repository (Python): the Signal bit reconstruction
from wave.py, the VCD streaming iterator from input.py, and the AXI-Stream
handshake decoder from decoder.py, together with theorems checking the
specification claims against this model.

Machine integers are modelled as Nat; Python bytes objects as List Nat
(big-endian, one entry per byte); operations that can raise exceptions
return Option or Except.
-/

deriving instance DecidableEq for Except

/-- Big-endian conversion of a byte string to a number, as in the Python
expression int.from_bytes(a, big). -/
def fromBytes (a : List Nat) : Nat :=
  a.foldl (fun acc b => acc * 256 + b) 0

/-- The byte string of the given length produced by int.to_bytes for a
number that fits, most significant byte first. -/
def toBytesTotal : Nat → Nat → List Nat
  | 0, _ => []
  | l + 1, n => toBytesTotal l (n / 256) ++ [n % 256]

/-- Model of int.to_bytes(length, big): raises OverflowError (modelled as
none) when the number does not fit into the given length. -/
def toBytes (l n : Nat) : Option (List Nat) :=
  if n < 256 ^ l then some (toBytesTotal l n) else none

/-- Signal.set_bit from wave.py: (int.from_bytes(a) | (1 << index)) re-encoded
to len(a) bytes. -/
def Signal.set_bit (a : List Nat) (index : Nat) : Option (List Nat) :=
  toBytes a.length (fromBytes a ||| (1 <<< index))

/-- Signal.clr_bit from wave.py: (int.from_bytes(a) AND NOT (1 << index))
re-encoded to len(a) bytes. On a non-negative integer x, x AND NOT m equals
x XOR (x AND m); the XOR form is used so the definition evaluates by kernel
reduction. -/
def Signal.clr_bit (a : List Nat) (index : Nat) : Option (List Nat) :=
  toBytes a.length (fromBytes a ^^^ (fromBytes a &&& (1 <<< index)))

/-- A Python value as stored in Signal.value or passed to Signal.set; the
model keeps the dynamic typing of the source: bool, bytes, int, a hex digit
string (one entry per digit, each below 16), or None. -/
inductive PyVal where
  | vbool (b : Bool)
  | vbytes (bs : List Nat)
  | vint (n : Nat)
  | vstr (hexdigits : List Nat)
  | vnone
deriving Repr, DecidableEq

/-- Python truthiness of the comparison value != 0 for the values PyVal can
hold: non-numbers compare unequal to 0. -/
def pyNeZero : PyVal → Bool
  | .vbool b => b
  | .vint n => n != 0
  | .vbytes _ => true
  | .vstr _ => true
  | .vnone => true

/-- bytes.fromhex on a list of hex digit values, two digits per byte. -/
def fromhexPairs : List Nat → List Nat
  | d1 :: d2 :: rest => (d1 * 16 + d2) :: fromhexPairs rest
  | _ => []

/-- The whole-vector string branch of Signal.set: left-pad to an even number
of hex digits, then bytes.fromhex. -/
def fromhexPadded (ds : List Nat) : List Nat :=
  fromhexPairs (if ds.length % 2 = 1 then 0 :: ds else ds)

/-- Signal from wave.py: a digital signal or vector. The handle dict mapping
bit offsets to change-stream id codes is modelled as an association list in
dict iteration order. The alias attribute is omitted: nothing here uses it. -/
structure Signal where
  name : String
  length : Nat
  handle : List (Nat × Nat)
  value : PyVal
deriving Repr, DecidableEq

/-- First handle entry whose id code matches, as the dict loop in Signal.set
finds it. -/
def findHandle (h : Nat) : List (Nat × Nat) → Option Nat
  | [] => none
  | (index, v) :: rest => if v = h then some index else findHandle h rest

/-- Signal.set from wave.py: update the value of the signal or of one bit of
it, selected by the change-stream handle. Returns none where the Python code
would raise: a to_bytes overflow, or a bit update on a stored value that is
neither bool nor bytes. -/
def Signal.set (sig : Signal) (h : Nat) (value : PyVal) : Option (Bool × Signal) :=
  if ¬ (sig.handle.map Prod.snd).contains h then
    some (false, sig)
  else if sig.handle.length = 1 ∧ ¬ sig.length = 1 then
    if sig.length = 1 then
      -- dead branch in the source: the guard above requires length ≠ 1
      match value with
      | .vbool b => some (true, { sig with value := .vbool b })
      | .vstr ds => some (true, { sig with value := .vbool (ds == [1]) })
      | _ => some (true, sig)
    else
      match value with
      | .vstr ds => some (true, { sig with value := .vbytes (fromhexPadded ds) })
      | v => some (true, { sig with value := v })
  else
    match findHandle h sig.handle with
    | some index =>
      match sig.value with
      | .vbool _ => some (true, { sig with value := .vbool (pyNeZero value) })
      | .vbytes a =>
        if pyNeZero value then
          (Signal.set_bit a index).map (fun a' => (true, { sig with value := .vbytes a' }))
        else
          (Signal.clr_bit a index).map (fun a' => (true, { sig with value := .vbytes a' }))
      | _ => none
    | none => some (false, sig)

/-- VCDWaveInput initialisation of values: vectors start as all-zero byte
strings of ceil(length / 8) bytes, scalars as False. -/
def initValue (sig : Signal) : Signal :=
  if sig.length > 1 then
    { sig with value := .vbytes (List.replicate ((sig.length + 8 - 1) / 8) 0) }
  else
    { sig with value := .vbool false }

/-- Coercion of a scalar change token level as in VCDWaveInput.__iter__:
any level other than the characters 0 and 1 becomes 0, then int(value). -/
def scalarLevel (v : Char) : Nat :=
  let v' := if v = '0' ∨ v = '1' then v else '0'
  if v' = '1' then 1 else 0

/-- The VCD tokens consumed by the streaming phase of VCDWaveInput.__iter__.
Comment and unhandled tokens are only printed by the source, so they carry
no data here. -/
inductive VToken where
  | changeTime (t : Nat)
  | changeScalar (idCode : Nat) (value : Char)
  | comment
  | other
deriving Repr, DecidableEq

/-- A yielded Sample: timestamp plus the signal table at emission time. -/
structure VSample where
  timestamp : Nat
  signals : List Signal
deriving Repr, DecidableEq

/-- State of the streaming loop: the live signal table and the flag telling
whether any change was applied since the last emitted Sample. -/
structure VCDState where
  signals : List Signal
  updated : Bool
deriving Repr, DecidableEq

/-- Apply one scalar change to the first signal that accepts the handle:
the for/break loop in VCDWaveInput.__iter__. The returned Bool is whether
some signal accepted the change; none models an exception escaping set. -/
def applyChange (h lvl : Nat) : List Signal → Option (List Signal × Bool)
  | [] => some ([], false)
  | sig :: rest =>
    match sig.set h (.vint lvl) with
    | none => none
    | some (true, sig') => some (sig' :: rest, true)
    | some (false, sig') =>
      match applyChange h lvl rest with
      | none => none
      | some (rest', u) => some (sig' :: rest', u)

/-- One loop iteration of VCDWaveInput.__iter__, with timeval the timescale
multiplier. On a time advance the code first computes the new timestamp and
then, if anything changed, yields a Sample carrying that new timestamp. -/
def iterStep (timeval : Nat) (st : VCDState) : VToken → Option (VCDState × Option VSample)
  | .changeTime t =>
    let timestamp := t * timeval
    if st.updated then
      some ({ st with updated := false }, some ⟨timestamp, st.signals⟩)
    else
      some (st, none)
  | .changeScalar h value =>
    match applyChange h (scalarLevel value) st.signals with
    | none => none
    | some (sigs, u) => some ({ signals := sigs, updated := st.updated || u }, none)
  | .comment => some (st, none)
  | .other => some (st, none)

/-- The full streaming phase: fold iterStep over the token list, collecting
the emitted Samples in order. -/
def runVCD (timeval : Nat) (st : VCDState) : List VToken → Option (List VSample × VCDState)
  | [] => some ([], st)
  | tok :: toks =>
    match iterStep timeval st tok with
    | none => none
    | some (st', os) =>
      match runVCD timeval st' toks with
      | none => none
      | some (smps, stf) => some (os.toList ++ smps, stf)

/-- The error kinds a decode step can raise: the three StreamError raises of
StreamDecoder.handshake_decode, the failed assertion in the SHIFT branch of
AXISPacket._normalize_keep, and the NotImplementedError of the MASK branch. -/
inductive DecErr where
  | validDrop
  | dataChanged
  | keepChanged
  | assertFailed
  | notImpl
deriving Repr, DecidableEq

/-- KeepHandling from decoder.py. -/
inductive KeepHandling where
  | NONE
  | MASK
  | SHIFT
deriving Repr, DecidableEq

/-- Python list removal data[:idx] + data[idx+1:], with the forgiving slice
semantics of the source. -/
def removeAt (data : List Nat) (idx : Nat) : List Nat :=
  data.take idx ++ data.drop (idx + 1)

/-- The inner loop of the SHIFT branch of AXISPacket._normalize_keep: for x
over the 8 bits of keep byte bidx, remove the data byte at
bidx * 8 + (7 - x) whenever bit x is unset. -/
def shiftInner (keep : List Nat) (bidx : Nat) (d : List Nat) : List Nat :=
  (List.range 8).foldl
    (fun d2 x =>
      if keep.getD bidx 0 &&& (1 <<< x) != 0 then d2
      else removeAt d2 (bidx * 8 + (7 - x)))
    d

/-- The nested byte-removal loop of the SHIFT branch of
AXISPacket._normalize_keep: bidx walks the keep bytes in reverse and the
inner loop removes the unkept data bytes of that lane group. -/
def shiftCompact (keep data : List Nat) : List Nat :=
  ((List.range keep.length).reverse).foldl
    (fun d bidx => shiftInner keep bidx d)
    data

/-- AXISPacket._normalize_keep from decoder.py: keep None or empty returns
the data unchanged; MASK raises NotImplementedError; SHIFT asserts
len(keep) * 8 == len(data) and then runs the removal loop; any other mode
returns the data unchanged. -/
def normalizeKeep (mode : KeepHandling) (data : List Nat) (keep : Option (List Nat)) :
    Except DecErr (List Nat) :=
  match keep with
  | none => .ok data
  | some k =>
    if k.isEmpty then .ok data
    else if mode = .MASK then .error .notImpl
    else if mode = .SHIFT then
      if k.length * 8 = data.length then .ok (shiftCompact k data)
      else .error .assertFailed
    else .ok data

/-- AXISPacket from decoder.py, with the Packet base fields. The name field
is omitted: nothing proved here refers to it. Timestamps are the Nat sample
timestamps of the model. -/
structure AXISPacket where
  starttime : Nat
  endtime : Option Nat := none
  data : List Nat
  datawidth : Nat
  keep : Option (List Nat) := none
  normdata : List Nat := []
  beats : Nat := 0
  backpreasure : Nat := 0
  keep_mode : KeepHandling := .NONE
deriving Repr, DecidableEq

/-- AXISPacket construction including its post-init step, which computes
normdata by normalising the first beat and can therefore raise. -/
def mkAXISPacket (starttime : Nat) (km : KeepHandling) (data : List Nat)
    (keep : Option (List Nat)) (datawidth : Nat) : Except DecErr AXISPacket :=
  (normalizeKeep km data keep).map fun nd =>
    { starttime := starttime, data := data, datawidth := datawidth,
      keep := keep, normdata := nd, keep_mode := km }

/-- Python truthiness of an optional bytes value: present and non-empty. -/
def bytesTruthy : Option (List Nat) → Bool
  | some l => !l.isEmpty
  | none => false

/-- AXISPacket.add from decoder.py: normalise the new beat (this can raise,
in which case nothing is mutated), append data and normdata, update endtime
when truthy, and extend keep when both the beat and the packet carry one. -/
def AXISPacket.add (p : AXISPacket) (data : List Nat) (keep : Option (List Nat))
    (endtime : Nat) : Except DecErr AXISPacket :=
  (normalizeKeep p.keep_mode data keep).map fun nd =>
    { p with
      normdata := p.normdata ++ nd
      data := p.data ++ data
      endtime := if endtime ≠ 0 then some endtime else p.endtime
      keep := if bytesTruthy keep && bytesTruthy p.keep then
                some (p.keep.getD [] ++ keep.getD [])
              else p.keep }

/-- The role values the AXIStream decoder reads from one Sample, in the
default binding where valid, ready and data are bound and last, keep and clk
are optional. An unbound optional role reads as none, matching the None the
source stores for it. -/
structure Values where
  valid : Bool
  ready : Bool
  last : Option Bool
  data : List Nat
  keep : Option (List Nat)
  clk : Option Bool
deriving Repr, DecidableEq

/-- A Sample as the decoder sees it: timestamp, role values, and the bit
length of the data signal (read by the source for the packet datawidth). -/
structure DSample where
  timestamp : Nat
  values : Values
  datawidth : Nat
deriving Repr, DecidableEq

/-- Mutable decoder state from StreamDecoder and AXIStream: the previous
processed role values, the open packet, and the beat and backpressure
counters. -/
structure AXIState where
  lastvalues : Option Values := none
  packet : Option AXISPacket := none
  beats : Nat := 0
  backpreasure : Nat := 0
deriving Repr, DecidableEq

/-- The decoder state right after construction. -/
def AXIState.init : AXIState := {}

/-- Python truthiness of an optional bool. -/
def optTruthy : Option Bool → Bool
  | some b => b
  | none => false

/-- The tail of StreamDecoder.handshake_decode after the violation checks:
count backpressure when valid is asserted without ready, and report whether
the cycle transfers a beat. -/
def handshakeRest (values : Values) (backpreasure : Nat) : Except DecErr (Bool × Nat) :=
  let bp := if values.valid && !values.ready then backpreasure + 1 else backpreasure
  .ok (values.valid && values.ready, bp)

/-- StreamDecoder.handshake_decode from decoder.py: with the previous cycle
stalled (valid without ready), a dropped valid, changed data, or changed
keep (when both present) each raise a StreamError, in that order. -/
def handshake_decode (values lastvalues : Values) (backpreasure : Nat) :
    Except DecErr (Bool × Nat) :=
  if lastvalues.valid && !lastvalues.ready then
    if !values.valid then .error .validDrop
    else if lastvalues.data ≠ values.data then .error .dataChanged
    else if (lastvalues.keep.isSome && values.keep.isSome)
            && lastvalues.keep ≠ values.keep then .error .keepChanged
    else handshakeRest values backpreasure
  else handshakeRest values backpreasure

/-- AXIStream.decode from decoder.py. On the first call the source aliases
the stored lastvalues dict to the current values dict before filling it, so
the previous snapshot equals the current sample; the getD reproduces that.
The returned state carries the mutations the source performs before a raise
(lastvalues always, the counters once updated). Sealing happens when last is
unbound or asserted; the sealed packet receives the counters, which reset. -/
def AXIStream.decode (km : KeepHandling) (st : AXIState) (s : DSample) :
    Except DecErr (Option AXISPacket) × AXIState :=
  let values := s.values
  let lastvalues := st.lastvalues.getD values
  let gated : Bool :=
    match values.clk with
    | some c => !c || optTruthy lastvalues.clk
    | none => false
  if values.clk.isSome && gated then
    (.ok none, { st with lastvalues := some { lastvalues with clk := values.clk } })
  else
    let st₁ := { st with lastvalues := some values }
    match handshake_decode values lastvalues st.backpreasure with
    | .error e => (.error e, st₁)
    | .ok (false, bp) => (.ok none, { st₁ with backpreasure := bp })
    | .ok (true, bp) =>
      let beats := st.beats + 1
      let packetE : Except DecErr AXISPacket :=
        match st.packet with
        | none => mkAXISPacket s.timestamp km values.data values.keep s.datawidth
        | some p => p.add values.data values.keep s.timestamp
      match packetE with
      | .error e => (.error e, { st₁ with backpreasure := bp, beats := beats })
      | .ok p =>
        if values.last = none || values.last = some true then
          (.ok (some { p with beats := beats, backpreasure := bp }),
           { st₁ with packet := none, beats := 0, backpreasure := 0 })
        else
          (.ok none, { st₁ with packet := some p, beats := beats, backpreasure := bp })

/-- Drive AXIStream.decode over a sample list as WaveDecoder does, collecting
the yielded packets; the first raise aborts. -/
def AXIStream.decodeList (km : KeepHandling) (st : AXIState) :
    List DSample → Except DecErr (List AXISPacket × AXIState)
  | [] => .ok ([], st)
  | s :: rest =>
    match AXIStream.decode km st s with
    | (.error e, _) => .error e
    | (.ok op, st') =>
      match AXIStream.decodeList km st' rest with
      | .error e => .error e
      | .ok (ps, stf) => .ok (op.toList ++ ps, stf)

/-- The invariant claimed for Signal values: a boolean exactly when the bit
width is 1, otherwise a byte string of ceil(length / 8) bytes, with the
ceiling written as in the source. -/
def wfValue (sig : Signal) : Bool :=
  if sig.length = 1 then
    match sig.value with
    | .vbool _ => true
    | _ => false
  else
    match sig.value with
    | .vbytes bs => bs.length == (sig.length + 8 - 1) / 8
    | _ => false

/-- The keep bit that governs data byte idx under the lane numbering of the
removal loop: bit 7 - idx % 8 of keep byte idx / 8. -/
def keepBit (keep : List Nat) (idx : Nat) : Bool :=
  keep.getD (idx / 8) 0 &&& (1 <<< (7 - idx % 8)) != 0

/-- The bytes whose index satisfies p, indices counted from i. -/
def idxFilterFrom (p : Nat → Bool) : Nat → List Nat → List Nat
  | _, [] => []
  | i, b :: rest =>
    if p i then b :: idxFilterFrom p (i + 1) rest else idxFilterFrom p (i + 1) rest

/-- Byte removal at descending indices n-1, ..., 0: the order in which the
nested loop of shiftCompact visits data indices. -/
def sweep (p : Nat → Bool) : Nat → List Nat → List Nat
  | 0, data => data
  | n + 1, data => sweep p n (if p n then data else removeAt data n)

/-- Byte removal at descending indices lo+n-1, ..., lo: one lane group of
the removal order. -/
def sweepSeg (p : Nat → Bool) (lo : Nat) : Nat → List Nat → List Nat
  | 0, d => d
  | n + 1, d => sweepSeg p lo n (if p (lo + n) then d else removeAt d (lo + n))

/-- Number of set bits among bit positions 0..7 of one keep byte. -/
def byteSetBits (b : Nat) : Nat :=
  (List.range 8).countP (fun x => b &&& (1 <<< x) != 0)

/-- Total number of set qualifier bits of a keep byte string. -/
def keepSetBits (keep : List Nat) : Nat :=
  (keep.map byteSetBits).sum

/-- The effect on an open packet of adding a list of beats (timestamp, data)
that carry no keep bytes. -/
def addFold (p : AXISPacket) (xs : List (Nat × List Nat)) : AXISPacket :=
  xs.foldl (fun q td =>
    { q with
      data := q.data ++ td.2
      normdata := q.normdata ++ td.2
      endtime := if td.1 ≠ 0 then some td.1 else q.endtime }) p

/-- A sample with the given valid/ready, constant role shape: no last, keep
or clk bound. -/
def plainSample (valid ready : Bool) (t : Nat) (d : List Nat) (dw : Nat) : DSample :=
  ⟨t, ⟨valid, ready, none, d, none, none⟩, dw⟩

/-- A transferring sample with the last role bound to the given level. -/
def lastSample (l : Bool) (t : Nat) (d : List Nat) (dw : Nat) : DSample :=
  ⟨t, ⟨true, true, some l, d, none, none⟩, dw⟩

/-- Whether a decode result reports a StreamError, i.e. a protocol
violation; assertion failures and NotImplementedError are not. -/
def isProtocolViolation : Except DecErr (Option AXISPacket) → Bool
  | .error .validDrop => true
  | .error .dataChanged => true
  | .error .keepChanged => true
  | _ => false

/-! ### Byte encoding lemmas -/

theorem toBytesTotal_length (l : Nat) : ∀ n, (toBytesTotal l n).length = l := by
  induction l with
  | zero => intro n; rfl
  | succ l ih => intro n; simp [toBytesTotal, ih]

theorem fromBytes_append (xs : List Nat) (y : Nat) :
    fromBytes (xs ++ [y]) = fromBytes xs * 256 + y := by
  simp [fromBytes, List.foldl_append]

theorem fromBytes_lt (a : List Nat) (h : ∀ b ∈ a, b < 256) :
    fromBytes a < 256 ^ a.length := by
  induction a using List.reverseRecOn with
  | nil => simp [fromBytes]
  | append_singleton xs y ih =>
    have hy : y < 256 := h y (by simp)
    have hxs : fromBytes xs < 256 ^ xs.length := ih (fun b hb => h b (by simp [hb]))
    rw [fromBytes_append, List.length_append]
    simp only [List.length_singleton, pow_succ]
    calc fromBytes xs * 256 + y < (fromBytes xs + 1) * 256 := by omega
      _ ≤ 256 ^ xs.length * 256 := Nat.mul_le_mul_right 256 hxs

theorem fromBytes_toBytesTotal (l : Nat) :
    ∀ n, n < 256 ^ l → fromBytes (toBytesTotal l n) = n := by
  induction l with
  | zero =>
    intro n hn
    have : n = 0 := by simpa using hn
    subst this; rfl
  | succ l ih =>
    intro n hn
    have hdiv : n / 256 < 256 ^ l := by
      rw [Nat.div_lt_iff_lt_mul (by norm_num)]
      calc n < 256 ^ (l + 1) := hn
        _ = 256 ^ l * 256 := by rw [pow_succ]
    show fromBytes (toBytesTotal l (n / 256) ++ [n % 256]) = n
    rw [fromBytes_append, ih (n / 256) hdiv]
    omega

theorem toBytesTotal_fromBytes (a : List Nat) (h : ∀ b ∈ a, b < 256) :
    toBytesTotal a.length (fromBytes a) = a := by
  induction a using List.reverseRecOn with
  | nil => rfl
  | append_singleton xs y ih =>
    have hy : y < 256 := h y (by simp)
    have hxs := ih (fun b hb => h b (by simp [hb]))
    have hdiv : (fromBytes xs * 256 + y) / 256 = fromBytes xs := by omega
    have hmod : (fromBytes xs * 256 + y) % 256 = y := by omega
    rw [fromBytes_append, List.length_append]
    simp only [List.length_singleton]
    show toBytesTotal (xs.length + 1) (fromBytes xs * 256 + y) = xs ++ [y]
    simp [toBytesTotal, hdiv, hmod, hxs]

theorem toBytesTotal_mem_lt (l : Nat) : ∀ n, ∀ b ∈ toBytesTotal l n, b < 256 := by
  induction l with
  | zero => simp [toBytesTotal]
  | succ l ih =>
    intro n b hb
    simp only [toBytesTotal, List.mem_append, List.mem_singleton] at hb
    rcases hb with hb | hb
    · exact ih _ b hb
    · subst hb; exact Nat.mod_lt _ (by norm_num)

theorem two_pow_8_mul (l : Nat) : 256 ^ l = 2 ^ (8 * l) := by
  rw [Nat.pow_mul]

theorem set_bit_spec (a : List Nat) (index : Nat) (hwf : ∀ b ∈ a, b < 256)
    (hidx : index < 8 * a.length) :
    Signal.set_bit a index =
      some (toBytesTotal a.length (fromBytes a ||| 2 ^ index)) := by
  have hx : fromBytes a < 2 ^ (8 * a.length) := by
    rw [← two_pow_8_mul]; exact fromBytes_lt a hwf
  have hp : (2 : Nat) ^ index < 2 ^ (8 * a.length) :=
    Nat.pow_lt_pow_right (by norm_num) hidx
  unfold Signal.set_bit toBytes
  simp only [Nat.one_shiftLeft]
  rw [if_pos]
  rw [two_pow_8_mul]
  exact Nat.or_lt_two_pow hx hp

theorem clr_bit_spec (a : List Nat) (index : Nat) (hwf : ∀ b ∈ a, b < 256) :
    Signal.clr_bit a index =
      some (toBytesTotal a.length (fromBytes a ^^^ (fromBytes a &&& 2 ^ index))) := by
  have hx : fromBytes a < 2 ^ (8 * a.length) := by
    rw [← two_pow_8_mul]; exact fromBytes_lt a hwf
  have hand : fromBytes a &&& 2 ^ index < 2 ^ (8 * a.length) :=
    Nat.lt_of_le_of_lt Nat.and_le_left hx
  have hy : fromBytes a ^^^ (fromBytes a &&& 2 ^ index) < 2 ^ (8 * a.length) :=
    Nat.xor_lt_two_pow hx hand
  unfold Signal.clr_bit toBytes
  simp only [Nat.one_shiftLeft]
  rw [if_pos]
  rw [two_pow_8_mul]
  exact hy

theorem testBit_clr (x index j : Nat) :
    (x ^^^ (x &&& 2 ^ index)).testBit j = (x.testBit j && !(decide (index = j))) := by
  rw [Nat.testBit_xor, Nat.testBit_land, Nat.testBit_two_pow]
  cases hx : x.testBit j <;> cases h : decide (index = j) <;> simp

/-- Claim C7 counterexample: on the buffer 0x01 with bit 0 already set,
set_bit followed by clr_bit yields 0x00, not the prior contents 0x01. -/
theorem set_clr_restores_cex :
    (Signal.set_bit [1] 0).bind (fun a' => Signal.clr_bit a' 0) ≠ some [1] ∧
    (Signal.set_bit [1] 0).bind (fun a' => Signal.clr_bit a' 0) = some [0] := by
  decide

/-- Claim C7 (amended): for every byte buffer whose bit index is valid and
whose bit at that index is initially clear, Signal.set_bit followed by
Signal.clr_bit at the same index returns exactly the prior byte contents. -/
theorem set_clr_restores_when_bit_clear (a : List Nat) (index : Nat)
    (hwf : ∀ b ∈ a, b < 256) (hidx : index < 8 * a.length)
    (hbit : (fromBytes a).testBit index = false) :
    (Signal.set_bit a index).bind (fun a' => Signal.clr_bit a' index) = some a := by
  rw [set_bit_spec a index hwf hidx]
  simp only [Option.some_bind]
  set x₁ := fromBytes a ||| 2 ^ index with hx₁
  have hx₁lt : x₁ < 256 ^ a.length := by
    rw [two_pow_8_mul]
    exact Nat.or_lt_two_pow
      (by rw [← two_pow_8_mul]; exact fromBytes_lt a hwf)
      (Nat.pow_lt_pow_right (by norm_num) hidx)
  have ha'wf : ∀ b ∈ toBytesTotal a.length x₁, b < 256 := toBytesTotal_mem_lt _ _
  have ha'len : (toBytesTotal a.length x₁).length = a.length := toBytesTotal_length _ _
  have hFa' : fromBytes (toBytesTotal a.length x₁) = x₁ :=
    fromBytes_toBytesTotal _ _ hx₁lt
  rw [clr_bit_spec _ index ha'wf, ha'len, hFa']
  have hxeq : x₁ ^^^ (x₁ &&& 2 ^ index) = fromBytes a := by
    apply Nat.eq_of_testBit_eq
    intro j
    rw [testBit_clr]
    by_cases hj : index = j
    · subst hj
      simp [hbit]
    · simp [hx₁, Nat.testBit_lor, Nat.testBit_two_pow, hj]
  rw [hxeq, toBytesTotal_fromBytes a hwf]

/-- Claim C7 witness: a concrete instance, buffer 0x02 and bit 0. -/
theorem set_clr_restores_when_bit_clear_w :
    (Signal.set_bit [2] 0).bind (fun a' => Signal.clr_bit a' 0) = some [2] :=
  set_clr_restores_when_bit_clear [2] 0 (by decide) (by decide) (by decide)

/-! ### Signal.set: claims C9, C3, C8 -/

theorem findHandle_contains (h : Nat) :
    ∀ (l : List (Nat × Nat)) (index : Nat), findHandle h l = some index →
      (l.map Prod.snd).contains h = true := by
  intro l
  induction l with
  | nil => intro index hf; cases hf
  | cons p rest ih =>
    obtain ⟨i, w⟩ := p
    intro index hf
    simp only [findHandle] at hf
    rw [List.map_cons, List.contains_cons]
    by_cases hw : w = h
    · subst hw
      simp
    · rw [if_neg hw] at hf
      rw [ih _ hf]
      simp

theorem set_bit_length (a : List Nat) (index : Nat) (a' : List Nat)
    (hs : Signal.set_bit a index = some a') : a'.length = a.length := by
  unfold Signal.set_bit toBytes at hs
  split at hs
  · cases hs; exact toBytesTotal_length _ _
  · cases hs

theorem clr_bit_length (a : List Nat) (index : Nat) (a' : List Nat)
    (hs : Signal.clr_bit a index = some a') : a'.length = a.length := by
  unfold Signal.clr_bit toBytes at hs
  split at hs
  · cases hs; exact toBytesTotal_length _ _
  · cases hs

/-- Claim C9 (confirmed): a set call with a handle that does not belong to
the bit-source map returns False and leaves the Signal unchanged, and set
only returns True when the handle belongs. -/
theorem signal_set_foreign_handle (sig : Signal) (h : Nat) (v : PyVal) :
    ((sig.handle.map Prod.snd).contains h = false → sig.set h v = some (false, sig)) ∧
    (∀ b sig', sig.set h v = some (b, sig') → b = true →
      (sig.handle.map Prod.snd).contains h = true) := by
  constructor
  · intro hno
    unfold Signal.set
    rw [if_pos (by rw [hno]; decide)]
  · intro b sig' hset hb
    by_cases hc : (sig.handle.map Prod.snd).contains h = true
    · exact hc
    · have hno : (sig.handle.map Prod.snd).contains h = false := by
        cases hcc : (sig.handle.map Prod.snd).contains h
        · rfl
        · exact absurd hcc hc
      unfold Signal.set at hset
      rw [if_pos (by rw [hno]; decide)] at hset
      simp only [Option.some.injEq, Prod.mk.injEq] at hset
      rw [hb] at hset
      exact absurd hset.1 (by decide)

/-- Claim C9 witness: a concrete foreign handle is rejected without change. -/
theorem signal_set_foreign_handle_w :
    Signal.set ⟨"s", 1, [(0, 7)], .vbool false⟩ 9 (.vint 1) =
      some (false, ⟨"s", 1, [(0, 7)], .vbool false⟩) :=
  (signal_set_foreign_handle ⟨"s", 1, [(0, 7)], .vbool false⟩ 9 (.vint 1)).1 (by decide)

/-- Claim C3 counterexample: a scalar Signal holding False accepts its own
handle with level 0; the stored value does not change, yet set returns True.
The return value therefore reports that the handle belonged, not that a
change occurred. -/
theorem signal_set_true_without_change_cex :
    Signal.set ⟨"s", 1, [(0, 7)], .vbool false⟩ 7 (.vint 0) =
      some (true, ⟨"s", 1, [(0, 7)], .vbool false⟩) := by decide

theorem contains_findHandle (h : Nat) :
    ∀ (l : List (Nat × Nat)), (l.map Prod.snd).contains h = true →
      ∃ i, findHandle h l = some i := by
  intro l
  induction l with
  | nil => intro hc; simp at hc
  | cons p rest ih =>
    obtain ⟨i, w⟩ := p
    intro hc
    by_cases hw : w = h
    · exact ⟨i, by simp only [findHandle]; rw [if_pos hw]⟩
    · rw [List.map_cons, List.contains_cons] at hc
      have hwh : ¬ h = w := fun hh => hw hh.symm
      have hbw : (h == w) = false := by simpa using hwh
      rw [hbw, Bool.false_or] at hc
      obtain ⟨j, hj⟩ := ih hc
      exact ⟨j, by simp only [findHandle]; rw [if_neg hw]; exact hj⟩

/-- Claim C3 (amended): a set call whose handle belongs to the map updates
exactly the selected bit for a split-vector Signal (same byte length, the
incoming level at that bit, every other bit unchanged), and stores the
incoming value wholesale for a whole-vector Signal (single handle, width
above 1); the boolean return is true exactly when the handle belonged, not
whether the stored value changed. -/
theorem signal_set_updates_one_bit :
    (∀ (sig : Signal) (h v index : Nat) (a : List Nat),
      sig.value = .vbytes a → (∀ b ∈ a, b < 256) →
      findHandle h sig.handle = some index → index < 8 * a.length →
      ¬ (sig.handle.length = 1 ∧ ¬ sig.length = 1) →
      ∃ a', sig.set h (.vint v) = some (true, { sig with value := .vbytes a' }) ∧
        a'.length = a.length ∧
        (fromBytes a').testBit index = (v != 0) ∧
        ∀ j, j ≠ index → (fromBytes a').testBit j = (fromBytes a).testBit j) ∧
    (∀ (sig : Signal) (h v : Nat),
      sig.handle.length = 1 → ¬ sig.length = 1 →
      (sig.handle.map Prod.snd).contains h = true →
      sig.set h (.vint v) = some (true, { sig with value := .vint v })) ∧
    (∀ (sig : Signal) (h : Nat) (w : PyVal) (b : Bool) (sig' : Signal),
      sig.set h w = some (b, sig') →
      (b = true ↔ (sig.handle.map Prod.snd).contains h = true)) := by
  refine ⟨?_, ?_, ?_⟩
  · intro sig h v index a hval hwf hfind hidx hsplit
    have hc := findHandle_contains h sig.handle index hfind
    have hxa : fromBytes a < 2 ^ (8 * a.length) := by
      rw [← two_pow_8_mul]; exact fromBytes_lt a hwf
    unfold Signal.set
    rw [if_neg (not_not_intro hc), if_neg hsplit, hfind, hval]
    simp only [pyNeZero]
    by_cases hv : v = 0
    · subst hv
      rw [if_neg (by decide)]
      rw [clr_bit_spec a index hwf]
      have hy : fromBytes a ^^^ (fromBytes a &&& 2 ^ index) < 256 ^ a.length := by
        rw [two_pow_8_mul]
        exact Nat.xor_lt_two_pow hxa (Nat.lt_of_le_of_lt Nat.and_le_left hxa)
      refine ⟨toBytesTotal a.length (fromBytes a ^^^ (fromBytes a &&& 2 ^ index)),
        rfl, toBytesTotal_length _ _, ?_, ?_⟩
      · rw [fromBytes_toBytesTotal _ _ hy, testBit_clr]
        simp
      · intro j hj
        rw [fromBytes_toBytesTotal _ _ hy, testBit_clr]
        rw [decide_eq_false (fun hh => hj hh.symm)]
        simp
    · rw [if_pos (by simp [hv])]
      rw [set_bit_spec a index hwf hidx]
      have hy : fromBytes a ||| 2 ^ index < 256 ^ a.length := by
        rw [two_pow_8_mul]
        exact Nat.or_lt_two_pow hxa (Nat.pow_lt_pow_right (by norm_num) hidx)
      refine ⟨toBytesTotal a.length (fromBytes a ||| 2 ^ index),
        rfl, toBytesTotal_length _ _, ?_, ?_⟩
      · rw [fromBytes_toBytesTotal _ _ hy, Nat.testBit_lor, Nat.testBit_two_pow]
        simp [hv]
      · intro j hj
        rw [fromBytes_toBytesTotal _ _ hy, Nat.testBit_lor, Nat.testBit_two_pow]
        rw [decide_eq_false (fun hh => hj hh.symm)]
        simp
  · intro sig h v h1 h2 hc
    unfold Signal.set
    rw [if_neg (not_not_intro hc), if_pos ⟨h1, h2⟩, if_neg h2]
  · intro sig h w b sig' hset
    constructor
    · intro hb
      by_cases hc : (sig.handle.map Prod.snd).contains h = true
      · exact hc
      · have hno : (sig.handle.map Prod.snd).contains h = false := by
          cases hcc : (sig.handle.map Prod.snd).contains h
          · rfl
          · exact absurd hcc hc
        unfold Signal.set at hset
        rw [if_pos (by rw [hno]; decide)] at hset
        simp only [Option.some.injEq, Prod.mk.injEq] at hset
        rw [hb] at hset
        exact absurd hset.1 (by decide)
    · intro hc
      unfold Signal.set at hset
      rw [if_neg (not_not_intro hc)] at hset
      by_cases hg : sig.handle.length = 1 ∧ ¬ sig.length = 1
      · rw [if_pos hg, if_neg hg.2] at hset
        split at hset
        · simp only [Option.some.injEq, Prod.mk.injEq] at hset
          exact hset.1.symm
        · simp only [Option.some.injEq, Prod.mk.injEq] at hset
          exact hset.1.symm
      · rw [if_neg hg] at hset
        split at hset
        · -- findHandle returned some index
          rename_i index2 hfind2
          split at hset
          · simp only [Option.some.injEq, Prod.mk.injEq] at hset
            exact hset.1.symm
          · rename_i a hv2
            split at hset
            · cases hsb : Signal.set_bit a index2 with
              | none => rw [hsb] at hset; cases hset
              | some a' =>
                rw [hsb] at hset
                simp only [Option.map_some', Option.some.injEq,
                  Prod.mk.injEq] at hset
                exact hset.1.symm
            · cases hsb : Signal.clr_bit a index2 with
              | none => rw [hsb] at hset; cases hset
              | some a' =>
                rw [hsb] at hset
                simp only [Option.map_some', Option.some.injEq,
                  Prod.mk.injEq] at hset
                exact hset.1.symm
          · cases hset
        · -- findHandle returned none, impossible when the handle belongs
          rename_i hfind2
          obtain ⟨i, hf⟩ := contains_findHandle h sig.handle hc
          rw [hf] at hfind2
          cases hfind2

/-- Claim C3 witness: a two-bit split vector, setting bit 1 by handle, and a
whole-vector signal receiving the raw level. -/
theorem signal_set_updates_one_bit_w :
    (∃ a', Signal.set ⟨"v", 8, [(0, 3), (1, 4)], .vbytes [0]⟩ 4 (.vint 1) =
        some (true, { (⟨"v", 8, [(0, 3), (1, 4)], .vbytes [0]⟩ : Signal) with
                        value := .vbytes a' }) ∧
      a'.length = ([0] : List Nat).length ∧
      (fromBytes a').testBit 1 = ((1 : Nat) != 0) ∧
      ∀ j, j ≠ 1 → (fromBytes a').testBit j = (fromBytes [0]).testBit j) ∧
    Signal.set ⟨"w", 8, [(0, 5)], .vbytes [0]⟩ 5 (.vint 1) =
      some (true, ⟨"w", 8, [(0, 5)], .vint 1⟩) :=
  ⟨signal_set_updates_one_bit.1 ⟨"v", 8, [(0, 3), (1, 4)], .vbytes [0]⟩ 4 1 1 [0]
      rfl (by decide) (by decide) (by decide) (by decide),
   signal_set_updates_one_bit.2.1 ⟨"w", 8, [(0, 5)], .vbytes [0]⟩ 5 1
      rfl (by decide) (by decide)⟩

/-- Claim C8 counterexample: a whole-vector Signal (single handle, width 8)
satisfies the invariant, but a set call with an integer level stores the raw
int, producing a value that is neither bool nor a byte string. -/
theorem signal_value_invariant_cex :
    wfValue ⟨"v", 8, [(0, 5)], .vbytes [0]⟩ = true ∧
    Signal.set ⟨"v", 8, [(0, 5)], .vbytes [0]⟩ 5 (.vint 1) =
      some (true, ⟨"v", 8, [(0, 5)], .vint 1⟩) ∧
    wfValue ⟨"v", 8, [(0, 5)], .vint 1⟩ = false := by decide

/-- Claim C8 (amended): the value invariant (bool iff width 1, else
ceil(width/8) bytes) holds after initialisation for positive widths and is
preserved by every set call with an integer level on signals that are not
whole vectors (single handle with width above 1); for whole vectors set
stores the incoming int itself, breaking the invariant. The VCD reader
coerces every level outside 0 and 1 to 0 before calling set. -/
theorem signal_value_invariant_preserved :
    (∀ sig : Signal, 0 < sig.length → wfValue (initValue sig) = true) ∧
    (∀ (sig : Signal) (h n : Nat) (b : Bool) (sig' : Signal),
      wfValue sig = true →
      ¬ (sig.handle.length = 1 ∧ ¬ sig.length = 1) →
      sig.set h (.vint n) = some (b, sig') → wfValue sig' = true) ∧
    (∀ c : Char, ¬ c = '0' → ¬ c = '1' → scalarLevel c = 0) := by
  refine ⟨?_, ?_, ?_⟩
  · intro sig hl
    by_cases h1 : sig.length > 1
    · have hne : ¬ sig.length = 1 := by omega
      simp [initValue, wfValue, h1, hne]
    · have heq : sig.length = 1 := by omega
      simp [initValue, wfValue, heq]
  · intro sig h n b sig' hwfv hsplit hset
    unfold Signal.set at hset
    by_cases hc : (sig.handle.map Prod.snd).contains h = true
    · rw [if_neg (not_not_intro hc), if_neg hsplit] at hset
      split at hset
      · -- findHandle returned some index
        rename_i index hfind
        split at hset
        · -- stored value is a bool
          rename_i bb hv
          simp only [Option.some.injEq, Prod.mk.injEq] at hset
          have hl : sig.length = 1 := by
            by_contra hne
            unfold wfValue at hwfv
            rw [if_neg hne, hv] at hwfv
            cases hwfv
          rw [← hset.2]
          unfold wfValue
          simp [hl]
        · -- stored value is a byte string
          rename_i a hv
          have hlne : ¬ sig.length = 1 := by
            by_contra hl1
            unfold wfValue at hwfv
            rw [if_pos hl1, hv] at hwfv
            cases hwfv
          have hlen : a.length == (sig.length + 8 - 1) / 8 := by
            unfold wfValue at hwfv
            rw [if_neg hlne, hv] at hwfv
            exact hwfv
          split at hset
          · cases hsb : Signal.set_bit a index with
            | none => rw [hsb] at hset; cases hset
            | some a' =>
              rw [hsb] at hset
              simp only [Option.map_some', Option.some.injEq, Prod.mk.injEq] at hset
              have hlena' := set_bit_length a index a' hsb
              rw [← hset.2]
              unfold wfValue
              rw [if_neg hlne]
              show (a'.length == (sig.length + 8 - 1) / 8) = true
              rw [hlena']
              exact hlen
          · cases hsb : Signal.clr_bit a index with
            | none => rw [hsb] at hset; cases hset
            | some a' =>
              rw [hsb] at hset
              simp only [Option.map_some', Option.some.injEq, Prod.mk.injEq] at hset
              have hlena' := clr_bit_length a index a' hsb
              rw [← hset.2]
              unfold wfValue
              rw [if_neg hlne]
              show (a'.length == (sig.length + 8 - 1) / 8) = true
              rw [hlena']
              exact hlen
        · -- stored value of any other kind: the source raises
          cases hset
      · -- findHandle returned none: the signal is unchanged
        simp only [Option.some.injEq, Prod.mk.injEq] at hset
        rw [← hset.2]
        exact hwfv
    · have hno : (sig.handle.map Prod.snd).contains h = false := by
        cases hcc : (sig.handle.map Prod.snd).contains h
        · rfl
        · exact absurd hcc hc
      rw [if_pos (by rw [hno]; decide)] at hset
      simp only [Option.some.injEq, Prod.mk.injEq] at hset
      rw [← hset.2]
      exact hwfv
  · intro c h0 h1
    unfold scalarLevel
    simp [h0, h1]

/-- Claim C8 witness: concrete instances of the three parts. -/
theorem signal_value_invariant_preserved_w :
    wfValue (initValue ⟨"v", 9, [(0, 3)], .vnone⟩) = true ∧
    wfValue ⟨"b", 1, [(0, 7)], .vbool true⟩ = true ∧
    scalarLevel 'x' = 0 :=
  ⟨signal_value_invariant_preserved.1 ⟨"v", 9, [(0, 3)], .vnone⟩ (by decide),
   by decide,
   signal_value_invariant_preserved.2.2 'x' (by decide) (by decide)⟩

/-! ### VCD iteration: claim C1 -/

/-- Claim C1 counterexample: one tracked scalar, a change between the time
advances to 3 and to 9. The Sample coalescing that change is emitted while
processing the advance to 9 and carries timestamp 9, not the previous
timestamp 3 at which the changed state held. -/
theorem vcd_sample_prev_timestamp_cex :
    runVCD 1 ⟨[⟨"s", 1, [(0, 42)], .vbool false⟩], false⟩
        [.changeTime 3, .changeScalar 42 '1', .changeTime 9] =
      some ([⟨9, [⟨"s", 1, [(0, 42)], .vbool true⟩]⟩],
            ⟨[⟨"s", 1, [(0, 42)], .vbool true⟩], false⟩) ∧
    (9 : Nat) ≠ 3 := by decide

/-- Claim C1 (amended): when a time-advance token causes a Sample to be
emitted, the Sample carries the timestamp of the time-advance token being
processed (its tick count times the timescale), not the previous
timestamp. -/
theorem vcd_sample_carries_advance_timestamp (timeval t : Nat) (st st' : VCDState)
    (smp : VSample)
    (hemit : iterStep timeval st (.changeTime t) = some (st', some smp)) :
    smp.timestamp = t * timeval := by
  have hemit' : (if st.updated = true then
      some ((⟨st.signals, false⟩ : VCDState), some (⟨t * timeval, st.signals⟩ : VSample))
    else some (st, none)) = some (st', some smp) := hemit
  split at hemit'
  · simp only [Option.some.injEq, Prod.mk.injEq] at hemit'
    have h2 := hemit'.2
    simp only [Option.some.injEq] at h2
    rw [← h2]
  · simp at hemit'

/-- Claim C1 witness: a pending change and an advance to tick 5 with
timescale 2 emit a Sample carrying 10. -/
theorem vcd_sample_carries_advance_timestamp_w :
    (⟨10, []⟩ : VSample).timestamp = 5 * 2 :=
  vcd_sample_carries_advance_timestamp 2 5 ⟨[], true⟩ ⟨[], false⟩ ⟨10, []⟩ (by decide)

/-! ### SHIFT compaction: claim C2 -/

theorem length_removeAt (l : List Nat) (m : Nat) (hm : m < l.length) :
    (removeAt l m).length = l.length - 1 := by
  unfold removeAt
  rw [List.length_append, List.length_take, List.length_drop]
  omega

theorem removeAt_append (front rest : List Nat) (m : Nat) (hm : m < front.length) :
    removeAt (front ++ rest) m = removeAt front m ++ rest := by
  unfold removeAt
  rw [List.take_append_of_le_length (by omega),
      List.drop_append_of_le_length (by omega), List.append_assoc]

theorem sweep_append (p : Nat → Bool) :
    ∀ (n : Nat) (front rest : List Nat), n ≤ front.length →
      sweep p n (front ++ rest) = sweep p n front ++ rest := by
  intro n
  induction n with
  | zero => intro front rest h; rfl
  | succ m ih =>
    intro front rest h
    show sweep p m (if p m then front ++ rest else removeAt (front ++ rest) m) =
      sweep p m (if p m then front else removeAt front m) ++ rest
    by_cases hp : p m = true
    · rw [if_pos hp, if_pos hp]
      exact ih front rest (by omega)
    · rw [if_neg hp, if_neg hp, removeAt_append front rest m (by omega)]
      apply ih
      rw [length_removeAt front m (by omega)]
      omega

theorem idxFilterFrom_append (p : Nat → Bool) :
    ∀ (xs ys : List Nat) (i : Nat),
      idxFilterFrom p i (xs ++ ys) =
        idxFilterFrom p i xs ++ idxFilterFrom p (i + xs.length) ys := by
  intro xs
  induction xs with
  | nil => intro ys i; simp [idxFilterFrom]
  | cons b rest ih =>
    intro ys i
    have harith : i + 1 + rest.length = i + (rest.length + 1) := by omega
    show idxFilterFrom p i (b :: (rest ++ ys)) = _
    simp only [idxFilterFrom, List.length_cons]
    rw [ih ys (i + 1), harith]
    by_cases hp : p i = true
    · rw [if_pos hp, if_pos hp]
      simp
    · rw [if_neg hp, if_neg hp]

theorem sweep_eq_idxFilter (p : Nat → Bool) (front : List Nat) :
    sweep p front.length front = idxFilterFrom p 0 front := by
  induction front using List.reverseRecOn with
  | nil => rfl
  | append_singleton xs y ih =>
    rw [List.length_append, List.length_singleton]
    have hrm : removeAt (xs ++ [y]) xs.length = xs := by
      unfold removeAt
      rw [List.take_append_of_le_length (le_refl _), List.take_length]
      have hlen : xs.length + 1 = (xs ++ [y]).length := by simp
      rw [hlen, List.drop_length, List.append_nil]
    show sweep p xs.length (if p xs.length then xs ++ [y]
        else removeAt (xs ++ [y]) xs.length) = idxFilterFrom p 0 (xs ++ [y])
    rw [idxFilterFrom_append p xs [y] 0, Nat.zero_add]
    by_cases hp : p xs.length = true
    · rw [if_pos hp, sweep_append p xs.length xs [y] (le_refl _), ih]
      simp [idxFilterFrom, hp]
    · rw [if_neg hp, hrm, ih]
      simp [idxFilterFrom, hp]

theorem keepBit_decomp (keep : List Nat) (b j : Nat) (hj : j < 8) :
    keepBit keep (b * 8 + j) = (keep.getD b 0 &&& (1 <<< (7 - j)) != 0) := by
  unfold keepBit
  have hdiv : (b * 8 + j) / 8 = b := by omega
  have hmod : (b * 8 + j) % 8 = j := by omega
  rw [hdiv, hmod]

theorem keepBit_decomp_x (keep : List Nat) (b x : Nat) (hx : x < 8) :
    keepBit keep (b * 8 + (7 - x)) = (keep.getD b 0 &&& (1 <<< x) != 0) := by
  unfold keepBit
  have hdiv : (b * 8 + (7 - x)) / 8 = b := by omega
  have hmod : 7 - (b * 8 + (7 - x)) % 8 = x := by omega
  rw [hdiv, hmod]

theorem sweepSeg_peel (p : Nat → Bool) :
    ∀ (n lo : Nat) (d : List Nat),
      sweepSeg p lo (n + 1) d =
        if p lo then sweepSeg p (lo + 1) n d
        else removeAt (sweepSeg p (lo + 1) n d) lo := by
  intro n
  induction n with
  | zero =>
    intro lo d
    show sweepSeg p lo 0 (if p (lo + 0) then d else removeAt d (lo + 0)) = _
    rw [Nat.add_zero]
    by_cases hp : p lo = true
    · rw [if_pos hp, if_pos hp]; rfl
    · rw [if_neg hp, if_neg hp]; rfl
  | succ m ih =>
    intro lo d
    show sweepSeg p lo (m + 1) (if p (lo + (m + 1)) then d else removeAt d (lo + (m + 1))) = _
    rw [ih lo]
    have harith : lo + (m + 1) = lo + 1 + m := by omega
    rw [harith]
    by_cases hp : p lo = true
    · rw [if_pos hp, if_pos hp]
      rfl
    · rw [if_neg hp, if_neg hp]
      rfl

theorem sweep_sweepSeg (p : Nat → Bool) :
    ∀ (n lo : Nat) (d : List Nat),
      sweep p (lo + n) d = sweep p lo (sweepSeg p lo n d) := by
  intro n
  induction n with
  | zero => intro lo d; rfl
  | succ m ih =>
    intro lo d
    show sweep p (lo + m) (if p (lo + m) then d else removeAt d (lo + m)) = _
    rw [ih lo]
    rfl

theorem shiftInner_sweepSeg (keep : List Nat) (b : Nat) :
    ∀ (k : Nat), k ≤ 8 → ∀ (d : List Nat),
      (List.range k).foldl
        (fun d2 x =>
          if keep.getD b 0 &&& (1 <<< x) != 0 then d2
          else removeAt d2 (b * 8 + (7 - x))) d =
      sweepSeg (keepBit keep) (b * 8 + (8 - k)) k d := by
  intro k
  induction k with
  | zero => intro hk d; rfl
  | succ m ih =>
    intro hk d
    rw [List.range_succ, List.foldl_append, List.foldl_cons, List.foldl_nil]
    rw [ih (by omega) d]
    rw [sweepSeg_peel]
    have h1 : b * 8 + (8 - (m + 1)) = b * 8 + (7 - m) := by omega
    rw [h1]
    have h2 : b * 8 + (7 - m) + 1 = b * 8 + (8 - m) := by omega
    rw [h2, keepBit_decomp_x keep b m (by omega)]

theorem sweep_eight (keep : List Nat) (b : Nat) (d : List Nat) :
    sweep (keepBit keep) (b * 8 + 8) d =
      sweep (keepBit keep) (b * 8) (shiftInner keep b d) := by
  rw [sweep_sweepSeg (keepBit keep) 8 (b * 8) d]
  unfold shiftInner
  rw [shiftInner_sweepSeg keep b 8 (le_refl 8) d]
  have h : b * 8 + (8 - 8) = b * 8 := by omega
  rw [h]

theorem shiftCompact_eq_sweep_aux (keep : List Nat) :
    ∀ (m : Nat), m ≤ keep.length → ∀ (d : List Nat),
      ((List.range m).reverse).foldl (fun d bidx => shiftInner keep bidx d) d =
        sweep (keepBit keep) (m * 8) d := by
  intro m
  induction m with
  | zero => intro hm d; rfl
  | succ l ih =>
    intro hm d
    rw [List.range_succ, List.reverse_append, List.reverse_singleton,
        List.singleton_append, List.foldl_cons]
    rw [ih (by omega) (shiftInner keep l d)]
    rw [← sweep_eight keep l d]
    have h : l * 8 + 8 = (l + 1) * 8 := by omega
    rw [h]

theorem shiftCompact_eq_sweep (keep data : List Nat) :
    shiftCompact keep data = sweep (keepBit keep) (keep.length * 8) data := by
  unfold shiftCompact
  exact shiftCompact_eq_sweep_aux keep keep.length (le_refl _) data

theorem idxFilterFrom_length (p : Nat → Bool) :
    ∀ (xs : List Nat) (i : Nat),
      (idxFilterFrom p i xs).length = (List.range' i xs.length).countP p := by
  intro xs
  induction xs with
  | nil => intro i; rfl
  | cons b rest ih =>
    intro i
    show (if p i then b :: idxFilterFrom p (i + 1) rest
      else idxFilterFrom p (i + 1) rest).length = (List.range' i (rest.length + 1)).countP p
    rw [List.range'_succ, List.countP_cons]
    by_cases hp : p i = true
    · rw [if_pos hp, hp]
      simp [ih (i + 1)]
    · rw [if_neg hp]
      have hp' : p i = false := by
        cases hpp : p i
        · rfl
        · exact absurd hpp hp
      rw [hp']
      simp [ih (i + 1)]

theorem idxFilterFrom_all (p : Nat → Bool) :
    ∀ (xs : List Nat) (i : Nat),
      (∀ j, i ≤ j → j < i + xs.length → p j = true) →
      idxFilterFrom p i xs = xs := by
  intro xs
  induction xs with
  | nil => intro i hall; rfl
  | cons b rest ih =>
    intro i hall
    show (if p i then b :: idxFilterFrom p (i + 1) rest
      else idxFilterFrom p (i + 1) rest) = b :: rest
    rw [if_pos (hall i (le_refl _) (by simp)), ih (i + 1) ?_]
    intro j hj1 hj2
    exact hall j (by omega) (by simp at hj2 ⊢; omega)

theorem getD_append_last (ks : List Nat) (k : Nat) :
    (ks ++ [k]).getD ks.length 0 = k := by
  rw [List.getD_append_right ks [k] 0 ks.length (le_refl _)]
  simp

theorem countP_keepBit_last (ks : List Nat) (k : Nat) :
    (List.range' (ks.length * 8) 8).countP (keepBit (ks ++ [k])) = byteSetBits k := by
  rw [List.range'_eq_map_range, List.countP_map]
  have hcongr : ∀ j ∈ List.range 8,
      (keepBit (ks ++ [k]) ∘ (fun x => ks.length * 8 + x)) j =
        (fun j => k &&& (1 <<< (7 - j)) != 0) j := by
    intro j hj
    have hj8 : j < 8 := List.mem_range.mp hj
    show keepBit (ks ++ [k]) (ks.length * 8 + j) = _
    rw [keepBit_decomp (ks ++ [k]) ks.length j hj8, getD_append_last]
  rw [List.countP_congr (fun a ha => by rw [hcongr a ha])]
  have hmap : ((List.range 8).map (fun j => 7 - j)) = [7, 6, 5, 4, 3, 2, 1, 0] := by decide
  have hperm : ([7, 6, 5, 4, 3, 2, 1, 0] : List Nat).Perm (List.range 8) := by decide
  unfold byteSetBits
  calc (List.range 8).countP (fun j => k &&& (1 <<< (7 - j)) != 0)
      = (List.range 8).countP ((fun x => k &&& (1 <<< x) != 0) ∘ (fun j => 7 - j)) := by rfl
    _ = ((List.range 8).map (fun j => 7 - j)).countP (fun x => k &&& (1 <<< x) != 0) := by
        rw [List.countP_map]
    _ = ([7, 6, 5, 4, 3, 2, 1, 0] : List Nat).countP (fun x => k &&& (1 <<< x) != 0) := by
        rw [hmap]
    _ = (List.range 8).countP (fun x => k &&& (1 <<< x) != 0) := hperm.countP_eq _

theorem countP_keepBit (keep : List Nat) :
    (List.range' 0 (keep.length * 8)).countP (keepBit keep) = keepSetBits keep := by
  induction keep using List.reverseRecOn with
  | nil => rfl
  | append_singleton ks k ih =>
    rw [List.length_append, List.length_singleton]
    have hsplit : List.range' 0 ((ks.length + 1) * 8) =
        List.range' 0 (ks.length * 8) ++ List.range' (ks.length * 8) 8 := by
      have h : (ks.length + 1) * 8 = 8 + ks.length * 8 := by omega
      rw [h, ← List.range'_append 0 (ks.length * 8) 8 1]
      simp
    rw [hsplit, List.countP_append]
    have hfirst : (List.range' 0 (ks.length * 8)).countP (keepBit (ks ++ [k])) =
        (List.range' 0 (ks.length * 8)).countP (keepBit ks) := by
      apply List.countP_congr
      intro a ha
      have hb : a < ks.length * 8 := by
        have := List.mem_range'_1.mp ha
        omega
      unfold keepBit
      rw [List.getD_append ks [k] 0 (a / 8) (by omega)]
    rw [hfirst, ih, countP_keepBit_last]
    unfold keepSetBits
    rw [List.map_append, List.sum_append]
    simp

/-- Claim C2 counterexample: for the 4-byte beat 0xAABBCCDD with the one
qualifier byte 0x0C (the two most-significant lanes of a 4-lane bus), the
SHIFT branch first asserts len(keep) * 8 == len(data), which fails (8 vs 4):
normalisation raises AssertionError instead of returning 0xAABB. -/
theorem shift_compaction_aabbccdd_cex :
    normalizeKeep .SHIFT [0xAA, 0xBB, 0xCC, 0xDD] (some [0x0C]) =
      .error .assertFailed ∧
    normalizeKeep .SHIFT [0xAA, 0xBB, 0xCC, 0xDD] (some [0x0C]) ≠
      .ok [0xAA, 0xBB] := by decide

/-- Claim C2 (amended): for every beat satisfying the asserted precondition
len(keep) * 8 == len(data), the SHIFT normalisation returns the data with
every byte whose keep bit (bit 7 - idx mod 8 of keep byte idx / 8) is unset
removed, keeping order; the result has exactly as many bytes as there are
set qualifier bits, and with all qualifier bits set it equals the raw data.
In particular the 0xAABBCCDD example only goes through on a lane-padded
8-byte beat; the literal 4-byte example fails the assertion. -/
theorem shift_compaction_filters_kept_bytes (keep data : List Nat)
    (hlen : keep.length * 8 = data.length) :
    normalizeKeep .SHIFT data (some keep) =
      .ok (idxFilterFrom (keepBit keep) 0 data) ∧
    (idxFilterFrom (keepBit keep) 0 data).length = keepSetBits keep ∧
    ((∀ i, i < data.length → keepBit keep i = true) →
      normalizeKeep .SHIFT data (some keep) = .ok data) := by
  have hmain : normalizeKeep .SHIFT data (some keep) =
      .ok (idxFilterFrom (keepBit keep) 0 data) := by
    by_cases hk : keep.isEmpty = true
    · have hkeep : keep = [] := List.isEmpty_iff.mp hk
      subst hkeep
      have hdata : data = [] := by
        have h0 : data.length = 0 := by simp at hlen; omega
        exact List.length_eq_zero.mp h0
      subst hdata
      rfl
    · show (if keep.isEmpty = true then Except.ok data
        else if KeepHandling.SHIFT = KeepHandling.MASK then Except.error DecErr.notImpl
        else if KeepHandling.SHIFT = KeepHandling.SHIFT then
          if keep.length * 8 = data.length then Except.ok (shiftCompact keep data)
          else Except.error DecErr.assertFailed
        else Except.ok data) = Except.ok (idxFilterFrom (keepBit keep) 0 data)
      rw [if_neg hk, if_neg (by decide), if_pos (by decide), if_pos hlen]
      rw [shiftCompact_eq_sweep keep data, hlen]
      exact congrArg Except.ok (sweep_eq_idxFilter (keepBit keep) data)
  refine ⟨hmain, ?_, ?_⟩
  · rw [idxFilterFrom_length (keepBit keep) data 0, ← hlen]
    exact countP_keepBit keep
  · intro hall
    rw [hmain, idxFilterFrom_all (keepBit keep) data 0 ?_]
    intro j hj1 hj2
    exact hall j (by omega)

/-- Claim C2 witness: the example at the asserted width, an 8-byte beat
0xAABBCCDD00000000 with keep 0xC0 selecting the two most-significant lanes,
normalises to exactly 0xAABB; and with keep 0xFF the raw beat is returned
unchanged. -/
theorem shift_compaction_filters_kept_bytes_w :
    normalizeKeep .SHIFT [0xAA, 0xBB, 0xCC, 0xDD, 0, 0, 0, 0] (some [0xC0]) =
      .ok (idxFilterFrom (keepBit [0xC0]) 0 [0xAA, 0xBB, 0xCC, 0xDD, 0, 0, 0, 0]) ∧
    idxFilterFrom (keepBit [0xC0]) 0 [0xAA, 0xBB, 0xCC, 0xDD, 0, 0, 0, 0] =
      [0xAA, 0xBB] ∧
    normalizeKeep .SHIFT [0xAA, 0xBB, 0xCC, 0xDD, 1, 2, 3, 4] (some [0xFF]) =
      .ok [0xAA, 0xBB, 0xCC, 0xDD, 1, 2, 3, 4] :=
  ⟨(shift_compaction_filters_kept_bytes [0xC0] [0xAA, 0xBB, 0xCC, 0xDD, 0, 0, 0, 0]
      (by decide)).1,
   by decide,
   (shift_compaction_filters_kept_bytes [0xFF] [0xAA, 0xBB, 0xCC, 0xDD, 1, 2, 3, 4]
      (by decide)).2.2 (by decide)⟩

/-! ### AXIStream decoding: claims C10, C4, C5, C6 -/

theorem handshake_self (values : Values) (bp : Nat) :
    handshake_decode values values bp = handshakeRest values bp := by
  unfold handshake_decode
  by_cases h : (values.valid && !values.ready) = true
  · have hv : values.valid = true := by
      cases hvv : values.valid
      · rw [hvv] at h; simp at h
      · rfl
    rw [if_pos h, if_neg (by simp [hv]), if_neg (by simp), if_neg (by simp)]
  · rw [if_neg h]

theorem normalizeKeep_err (mode : KeepHandling) (data : List Nat)
    (keep : Option (List Nat)) (e : DecErr)
    (h : normalizeKeep mode data keep = .error e) :
    e = .notImpl ∨ e = .assertFailed := by
  unfold normalizeKeep at h
  split at h
  · cases h
  · split at h
    · cases h
    · split at h
      · cases h; left; rfl
      · split at h
        · split at h
          · cases h
          · cases h; right; rfl
        · cases h

theorem mkAXISPacket_err (starttime : Nat) (km : KeepHandling) (data : List Nat)
    (keep : Option (List Nat)) (dw : Nat) (e : DecErr)
    (h : mkAXISPacket starttime km data keep dw = .error e) :
    e = .notImpl ∨ e = .assertFailed := by
  unfold mkAXISPacket at h
  cases hn : normalizeKeep km data keep with
  | ok nd => rw [hn] at h; cases h
  | error e2 =>
    rw [hn] at h
    cases h
    exact normalizeKeep_err km data keep _ hn

theorem packetAdd_err (p : AXISPacket) (data : List Nat) (keep : Option (List Nat))
    (endtime : Nat) (e : DecErr)
    (h : p.add data keep endtime = .error e) :
    e = .notImpl ∨ e = .assertFailed := by
  unfold AXISPacket.add at h
  cases hn : normalizeKeep p.keep_mode data keep with
  | ok nd => rw [hn] at h; cases h
  | error e2 =>
    rw [hn] at h
    cases h
    exact normalizeKeep_err p.keep_mode data keep _ hn

/-- Claim C10 (confirmed): the first sample processed by a freshly
constructed AXIStream decoder never raises a protocol-violation StreamError,
whatever its valid, ready, data and keep values: the stored previous
snapshot is aliased to the current values dict on the first call, so every
stall comparison compares the sample with itself. Assertion failures of the
keep normalisation are not protocol violations. -/
theorem first_sample_no_violation (km : KeepHandling) (s : DSample) :
    isProtocolViolation (AXIStream.decode km AXIState.init s).1 = false := by
  unfold AXIStream.decode
  simp only [AXIState.init, Option.getD_none]
  split
  · rfl
  · rw [handshake_self s.values 0]
    unfold handshakeRest
    cases hvr : (s.values.valid && s.values.ready) with
    | false => rfl
    | true =>
      cases hmk : mkAXISPacket s.timestamp km s.values.data s.values.keep s.datawidth with
      | error e =>
        rcases mkAXISPacket_err _ _ _ _ _ _ hmk with he | he <;> rw [he] <;> rfl
      | ok p =>
        cases hc : (decide (s.values.last = none) || decide (s.values.last = some true)) with
        | false => rfl
        | true => rfl

theorem handshake_stall_raises (values lv : Values) (bp : Nat)
    (hvalid : lv.valid = true) (hready : lv.ready = false)
    (hviol : values.valid = false ∨ lv.data ≠ values.data ∨
      (lv.keep.isSome = true ∧ values.keep.isSome = true ∧ lv.keep ≠ values.keep)) :
    ∃ e, handshake_decode values lv bp = .error e ∧
      isProtocolViolation (.error e) = true := by
  unfold handshake_decode
  rw [if_pos (by simp [hvalid, hready])]
  by_cases hv : values.valid = true
  · rw [if_neg (by simp [hv])]
    by_cases hd : lv.data = values.data
    · have hk : lv.keep.isSome = true ∧ values.keep.isSome = true ∧ lv.keep ≠ values.keep := by
        rcases hviol with h | h | h
        · rw [hv] at h; cases h
        · exact absurd hd h
        · exact h
      rw [if_neg (not_not_intro hd), if_pos (by simp [hk.1, hk.2.1, hk.2.2])]
      exact ⟨.keepChanged, rfl, rfl⟩
    · rw [if_pos hd]
      exact ⟨.dataChanged, rfl, rfl⟩
  · have hvf : values.valid = false := by
      cases hvv : values.valid
      · rfl
      · exact absurd hvv hv
    rw [if_pos (by simp [hvf])]
    exact ⟨.validDrop, rfl, rfl⟩

/-- Claim C4 (confirmed): if the previous processed sample had valid
asserted without ready, then a current sample that is processed (not gated
away by the clock role) and drops valid, changes data, or changes keep with
both present, makes decode raise a StreamError, and no Packet is sealed or
emitted: the open packet of the state is untouched. -/
theorem stall_violation_raises (km : KeepHandling) (st : AXIState) (lv : Values)
    (s : DSample)
    (hlast : st.lastvalues = some lv)
    (hvalid : lv.valid = true) (hready : lv.ready = false)
    (hclk : s.values.clk = none ∨ (s.values.clk = some true ∧ optTruthy lv.clk = false))
    (hviol : s.values.valid = false ∨ lv.data ≠ s.values.data ∨
      (lv.keep.isSome = true ∧ s.values.keep.isSome = true ∧ lv.keep ≠ s.values.keep)) :
    isProtocolViolation (AXIStream.decode km st s).1 = true ∧
    (AXIStream.decode km st s).2.packet = st.packet := by
  obtain ⟨e, he, hpv⟩ :=
    handshake_stall_raises s.values lv st.backpreasure hvalid hready hviol
  unfold AXIStream.decode
  rw [hlast]
  simp only [Option.getD_some]
  have hgate : (s.values.clk.isSome && (match s.values.clk with
      | some c => !c || optTruthy lv.clk
      | none => false)) = false := by
    rcases hclk with h | ⟨h1, h2⟩
    · rw [h]; rfl
    · rw [h1, h2]; rfl
  rw [hgate, if_neg Bool.false_ne_true, he]
  exact ⟨hpv, rfl⟩

/-- Claim C4 witness: after a first sample with valid high and ready low,
a second sample dropping valid raises, and no packet is sealed. -/
theorem stall_violation_raises_w :
    isProtocolViolation (AXIStream.decode .SHIFT
      { lastvalues := some ⟨true, false, none, [5], none, none⟩, packet := none,
        beats := 0, backpreasure := 1 }
      ⟨2, ⟨false, false, none, [5], none, none⟩, 8⟩).1 = true ∧
    (AXIStream.decode .SHIFT
      { lastvalues := some ⟨true, false, none, [5], none, none⟩, packet := none,
        beats := 0, backpreasure := 1 }
      ⟨2, ⟨false, false, none, [5], none, none⟩, 8⟩).2.packet = none :=
  stall_violation_raises .SHIFT
    { lastvalues := some ⟨true, false, none, [5], none, none⟩, packet := none,
      beats := 0, backpreasure := 1 }
    ⟨true, false, none, [5], none, none⟩
    ⟨2, ⟨false, false, none, [5], none, none⟩, 8⟩
    rfl rfl rfl (Or.inl rfl) (Or.inl rfl)

theorem decode_stall_step (km : KeepHandling) (d : List Nat) (dw t k : Nat) :
    AXIStream.decode km
      { lastvalues := some ⟨true, false, none, d, none, none⟩, packet := none,
        beats := 0, backpreasure := k }
      (plainSample true false t d dw) =
    (.ok none,
      { lastvalues := some ⟨true, false, none, d, none, none⟩, packet := none,
        beats := 0, backpreasure := k + 1 }) := by
  simp [AXIStream.decode, plainSample, handshake_decode, handshakeRest,
    mkAXISPacket, normalizeKeep, optTruthy, Except.map]

theorem decode_go_step (km : KeepHandling) (d : List Nat) (dw t k : Nat) :
    AXIStream.decode km
      { lastvalues := some ⟨true, false, none, d, none, none⟩, packet := none,
        beats := 0, backpreasure := k }
      (plainSample true true t d dw) =
    (.ok (some { starttime := t, endtime := none, data := d, datawidth := dw,
                 keep := none, normdata := d, beats := 1, backpreasure := k,
                 keep_mode := km }),
     { lastvalues := some ⟨true, true, none, d, none, none⟩, packet := none,
       beats := 0, backpreasure := 0 }) := by
  simp [AXIStream.decode, plainSample, handshake_decode, handshakeRest,
    mkAXISPacket, normalizeKeep, optTruthy, Except.map]

theorem decode_init_stall (km : KeepHandling) (d : List Nat) (dw t : Nat) :
    AXIStream.decode km AXIState.init (plainSample true false t d dw) =
    (.ok none,
      { lastvalues := some ⟨true, false, none, d, none, none⟩, packet := none,
        beats := 0, backpreasure := 1 }) := by
  simp [AXIStream.decode, plainSample, AXIState.init, handshake_decode,
    handshakeRest, mkAXISPacket, normalizeKeep, optTruthy, Except.map]

theorem decode_init_go (km : KeepHandling) (d : List Nat) (dw t : Nat) :
    AXIStream.decode km AXIState.init (plainSample true true t d dw) =
    (.ok (some { starttime := t, endtime := none, data := d, datawidth := dw,
                 keep := none, normdata := d, beats := 1, backpreasure := 0,
                 keep_mode := km }),
     { lastvalues := some ⟨true, true, none, d, none, none⟩, packet := none,
       beats := 0, backpreasure := 0 }) := by
  simp [AXIStream.decode, plainSample, AXIState.init, handshake_decode,
    handshakeRest, mkAXISPacket, normalizeKeep, optTruthy, Except.map]

theorem decodeList_cons_ok (km : KeepHandling) (st : AXIState) (s : DSample)
    (rest : List DSample) (op : Option AXISPacket) (st' : AXIState)
    (h : AXIStream.decode km st s = (.ok op, st')) :
    AXIStream.decodeList km st (s :: rest) =
      match AXIStream.decodeList km st' rest with
      | .error e => .error e
      | .ok (ps, stf) => .ok (op.toList ++ ps, stf) := by
  show (match AXIStream.decode km st s with
    | (Except.error e, _) => Except.error e
    | (Except.ok op, st') =>
      match AXIStream.decodeList km st' rest with
      | Except.error e => Except.error e
      | Except.ok (ps, stf) => Except.ok (op.toList ++ ps, stf)) = _
  rw [h]

theorem decodeList_stall_chain (km : KeepHandling) (d : List Nat) (dw : Nat) :
    ∀ (tss : List Nat) (k tf : Nat),
      AXIStream.decodeList km
        { lastvalues := some ⟨true, false, none, d, none, none⟩, packet := none,
          beats := 0, backpreasure := k }
        (tss.map (fun t => plainSample true false t d dw) ++
          [plainSample true true tf d dw]) =
      .ok ([{ starttime := tf, endtime := none, data := d, datawidth := dw,
              keep := none, normdata := d, beats := 1,
              backpreasure := k + tss.length, keep_mode := km }],
           { lastvalues := some ⟨true, true, none, d, none, none⟩, packet := none,
             beats := 0, backpreasure := 0 }) := by
  intro tss
  induction tss with
  | nil =>
    intro k tf
    show AXIStream.decodeList km _ [plainSample true true tf d dw] = _
    rw [decodeList_cons_ok km _ _ [] _ _ (decode_go_step km d dw tf k)]
    simp [AXIStream.decodeList]
  | cons t ts ih =>
    intro k tf
    show AXIStream.decodeList km _
      (plainSample true false t d dw ::
        (ts.map (fun t => plainSample true false t d dw) ++
          [plainSample true true tf d dw])) = _
    rw [decodeList_cons_ok km _ _ _ _ _ (decode_stall_step km d dw t k),
        ih (k + 1) tf]
    have harith : k + 1 + ts.length = k + (ts.length + 1) := by omega
    simp [harith]

/-- Claim C5 (confirmed): a sequence of N samples with valid asserted and
ready low (holding the same data, as the stall rules require), followed by
one sample with valid and ready asserted, yields exactly one sealed Packet,
produced at the final cycle, with beats = 1 and backpressure equal to N;
the final decoder state has both counters reset to zero. N is the length of
the stall timestamp list. -/
theorem backpressure_counts_stall_cycles (km : KeepHandling) (d : List Nat)
    (dw : Nat) (stallTimes : List Nat) (tf : Nat) :
    AXIStream.decodeList km AXIState.init
      (stallTimes.map (fun t => plainSample true false t d dw) ++
        [plainSample true true tf d dw]) =
    .ok ([{ starttime := tf, endtime := none, data := d, datawidth := dw,
            keep := none, normdata := d, beats := 1,
            backpreasure := stallTimes.length, keep_mode := km }],
         { lastvalues := some ⟨true, true, none, d, none, none⟩, packet := none,
           beats := 0, backpreasure := 0 }) := by
  cases stallTimes with
  | nil =>
    show AXIStream.decodeList km AXIState.init [plainSample true true tf d dw] = _
    rw [decodeList_cons_ok km _ _ [] _ _ (decode_init_go km d dw tf)]
    simp [AXIStream.decodeList]
  | cons t ts =>
    show AXIStream.decodeList km AXIState.init
      (plainSample true false t d dw ::
        (ts.map (fun t => plainSample true false t d dw) ++
          [plainSample true true tf d dw])) = _
    rw [decodeList_cons_ok km _ _ _ _ _ (decode_init_stall km d dw t),
        decodeList_stall_chain km d dw ts 1 tf]
    have harith : 1 + ts.length = ts.length + 1 := by omega
    simp [harith]

theorem decode_sealed_go (km : KeepHandling) (dprev d : List Nat) (dw t : Nat) :
    AXIStream.decode km
      { lastvalues := some ⟨true, true, none, dprev, none, none⟩, packet := none,
        beats := 0, backpreasure := 0 }
      (plainSample true true t d dw) =
    (.ok (some { starttime := t, endtime := none, data := d, datawidth := dw,
                 keep := none, normdata := d, beats := 1, backpreasure := 0,
                 keep_mode := km }),
     { lastvalues := some ⟨true, true, none, d, none, none⟩, packet := none,
       beats := 0, backpreasure := 0 }) := by
  simp [AXIStream.decode, plainSample, handshake_decode, handshakeRest,
    mkAXISPacket, normalizeKeep, optTruthy, Except.map]

theorem decode_init_lastTrue (km : KeepHandling) (d : List Nat) (dw t : Nat) :
    AXIStream.decode km AXIState.init (lastSample true t d dw) =
    (.ok (some { starttime := t, endtime := none, data := d, datawidth := dw,
                 keep := none, normdata := d, beats := 1, backpreasure := 0,
                 keep_mode := km }),
     { lastvalues := some ⟨true, true, some true, d, none, none⟩, packet := none,
       beats := 0, backpreasure := 0 }) := by
  simp [AXIStream.decode, lastSample, AXIState.init, handshake_decode,
    handshakeRest, mkAXISPacket, normalizeKeep, optTruthy, Except.map]

theorem decode_init_lastFalse (km : KeepHandling) (d : List Nat) (dw t : Nat) :
    AXIStream.decode km AXIState.init (lastSample false t d dw) =
    (.ok none,
     { lastvalues := some ⟨true, true, some false, d, none, none⟩,
       packet := some { starttime := t, endtime := none, data := d,
                        datawidth := dw, keep := none, normdata := d,
                        beats := 0, backpreasure := 0, keep_mode := km },
       beats := 1, backpreasure := 0 }) := by
  simp [AXIStream.decode, lastSample, AXIState.init, handshake_decode,
    handshakeRest, mkAXISPacket, normalizeKeep, optTruthy, Except.map]

theorem decode_body_step (km : KeepHandling) (dprev d : List Nat) (dw t k : Nat)
    (p : AXISPacket) :
    AXIStream.decode km
      { lastvalues := some ⟨true, true, some false, dprev, none, none⟩,
        packet := some p, beats := k, backpreasure := 0 }
      (lastSample false t d dw) =
    (.ok none,
     { lastvalues := some ⟨true, true, some false, d, none, none⟩,
       packet := some
         { p with
           data := p.data ++ d,
           normdata := p.normdata ++ d,
           endtime := if t ≠ 0 then some t else p.endtime },
       beats := k + 1, backpreasure := 0 }) := by
  simp [AXIStream.decode, lastSample, handshake_decode, handshakeRest,
    AXISPacket.add, normalizeKeep, bytesTruthy, optTruthy, Except.map]

theorem decode_last_step (km : KeepHandling) (dprev d : List Nat) (dw t k : Nat)
    (p : AXISPacket) :
    AXIStream.decode km
      { lastvalues := some ⟨true, true, some false, dprev, none, none⟩,
        packet := some p, beats := k, backpreasure := 0 }
      (lastSample true t d dw) =
    (.ok (some
       { p with
         data := p.data ++ d,
         normdata := p.normdata ++ d,
         endtime := if t ≠ 0 then some t else p.endtime,
         beats := k + 1, backpreasure := 0 }),
     { lastvalues := some ⟨true, true, some true, d, none, none⟩, packet := none,
       beats := 0, backpreasure := 0 }) := by
  simp [AXIStream.decode, lastSample, handshake_decode, handshakeRest,
    AXISPacket.add, normalizeKeep, bytesTruthy, optTruthy, Except.map]

theorem decodeList_golist (km : KeepHandling) (dw : Nat) :
    ∀ (beatsL : List (Nat × List Nat)) (dprev : List Nat),
      AXIStream.decodeList km
        { lastvalues := some ⟨true, true, none, dprev, none, none⟩, packet := none,
          beats := 0, backpreasure := 0 }
        (beatsL.map (fun td => plainSample true true td.1 td.2 dw)) =
      .ok (beatsL.map (fun td =>
            { starttime := td.1, endtime := none, data := td.2, datawidth := dw,
              keep := none, normdata := td.2, beats := 1, backpreasure := 0,
              keep_mode := km }),
           { lastvalues := some ⟨true, true, none,
               beatsL.foldl (fun _ td => td.2) dprev, none, none⟩, packet := none,
             beats := 0, backpreasure := 0 }) := by
  intro beatsL
  induction beatsL with
  | nil => intro dprev; rfl
  | cons td rest ih =>
    intro dprev
    obtain ⟨t, d⟩ := td
    show AXIStream.decodeList km _
      (plainSample true true t d dw ::
        rest.map (fun td => plainSample true true td.1 td.2 dw)) = _
    rw [decodeList_cons_ok km _ _ _ _ _ (decode_sealed_go km dprev d dw t), ih d]
    simp

theorem decodeList_body_chain (km : KeepHandling) (dw : Nat) :
    ∀ (body : List (Nat × List Nat)) (p : AXISPacket) (k : Nat) (dprev : List Nat)
      (tf : Nat) (df : List Nat),
      AXIStream.decodeList km
        { lastvalues := some ⟨true, true, some false, dprev, none, none⟩,
          packet := some p, beats := k, backpreasure := 0 }
        (body.map (fun td => lastSample false td.1 td.2 dw) ++
          [lastSample true tf df dw]) =
      .ok ([{ addFold p (body ++ [(tf, df)]) with
              beats := k + body.length + 1, backpreasure := 0 }],
           { lastvalues := some ⟨true, true, some true, df, none, none⟩,
             packet := none, beats := 0, backpreasure := 0 }) := by
  intro body
  induction body with
  | nil =>
    intro p k dprev tf df
    show AXIStream.decodeList km _ [lastSample true tf df dw] = _
    rw [decodeList_cons_ok km _ _ [] _ _ (decode_last_step km dprev df dw tf k p)]
    simp [AXIStream.decodeList, addFold]
  | cons td rest ih =>
    intro p k dprev tf df
    obtain ⟨t, d⟩ := td
    show AXIStream.decodeList km _
      (lastSample false t d dw ::
        (rest.map (fun td => lastSample false td.1 td.2 dw) ++
          [lastSample true tf df dw])) = _
    rw [decodeList_cons_ok km _ _ _ _ _ (decode_body_step km dprev d dw t k p),
        ih _ (k + 1) d tf df]
    have harith : k + 1 + rest.length + 1 = k + (rest.length + 1) + 1 := by omega
    simp [addFold, harith]

/-- Claim C6 (confirmed): framing of the AXIStream decoder from a fresh
state. With no last role bound, every transferring beat immediately yields a
sealed Packet containing exactly one beat (beats = 1). With last bound, a
run of transferring beats with last low followed by one with last high seals
exactly one Packet, on the last-asserted beat, whose beat count is the
number of transferring beats since the previous seal (the whole run), and
whose payload is the accumulated beats in arrival order. -/
theorem axistream_framing (km : KeepHandling) (dw : Nat) :
    (∀ beatsL : List (Nat × List Nat), ∃ stf : AXIState,
      AXIStream.decodeList km AXIState.init
        (beatsL.map (fun td => plainSample true true td.1 td.2 dw)) =
      .ok (beatsL.map (fun td =>
        { starttime := td.1, endtime := none, data := td.2, datawidth := dw,
          keep := none, normdata := td.2, beats := 1, backpreasure := 0,
          keep_mode := km }), stf)) ∧
    (∀ (body : List (Nat × List Nat)) (tf : Nat) (df : List Nat),
      AXIStream.decodeList km AXIState.init
        (body.map (fun td => lastSample false td.1 td.2 dw) ++
          [lastSample true tf df dw]) =
      .ok ([{ addFold
          { starttime := (body.headD (tf, df)).1, endtime := none,
            data := (body.headD (tf, df)).2, datawidth := dw, keep := none,
            normdata := (body.headD (tf, df)).2, beats := 0, backpreasure := 0,
            keep_mode := km }
          ((body ++ [(tf, df)]).tail) with
          beats := body.length + 1, backpreasure := 0 }],
        { lastvalues := some ⟨true, true, some true, df, none, none⟩,
          packet := none, beats := 0, backpreasure := 0 })) := by
  constructor
  · intro beatsL
    cases beatsL with
    | nil => exact ⟨AXIState.init, rfl⟩
    | cons td rest =>
      obtain ⟨t, d⟩ := td
      refine
        ⟨{ lastvalues := some ⟨true, true, none, rest.foldl (fun _ td => td.2) d, none, none⟩,
           packet := none, beats := 0, backpreasure := 0 }, ?_⟩
      show AXIStream.decodeList km AXIState.init
        (plainSample true true t d dw ::
          rest.map (fun td => plainSample true true td.1 td.2 dw)) = _
      rw [decodeList_cons_ok km _ _ _ _ _ (decode_init_go km d dw t),
          decodeList_golist km dw rest d]
      simp
  · intro body tf df
    cases body with
    | nil =>
      show AXIStream.decodeList km AXIState.init [lastSample true tf df dw] = _
      rw [decodeList_cons_ok km _ _ [] _ _ (decode_init_lastTrue km df dw tf)]
      simp [AXIStream.decodeList, addFold]
    | cons td rest =>
      obtain ⟨t, d⟩ := td
      show AXIStream.decodeList km AXIState.init
        (lastSample false t d dw ::
          (rest.map (fun td => lastSample false td.1 td.2 dw) ++
            [lastSample true tf df dw])) = _
      rw [decodeList_cons_ok km _ _ _ _ _ (decode_init_lastFalse km d dw t),
          decodeList_body_chain km dw rest _ 1 d tf df]
      have harith : 1 + rest.length + 1 = rest.length + 1 + 1 := by omega
      simp [harith]
